import Mathlib

/-!
Verification of the `licenses` command (`src/cli/commands/licenses.js`):
the manifest collection pipeline (`getManifests`), the license grouping
loop and the two renderers of `list`, and `generateDisclaimer`.

JavaScript optional string fields are modelled as `Option String`, and JS
truthiness on them (`undefined` and `""` are falsy) is made explicit, since
the source branches with `||`, `&&` and `if (x)` on such fields.
`String.prototype.localeCompare` is modelled as the lexicographic
comparison of Lean's linear order on `String`; the claims only rely on it
being a total order. JS `Map` (insertion-ordered, `set` keeps the position
of an existing key) is modelled as an association list.
-/

/-- JS truthiness of an optional string: `undefined` and `""` are falsy. -/
def strTruthy : Option String → Bool
  | none => false
  | some s => s ≠ ""

/-- Value of an optional string, `""` for `undefined` (used only under a
truthiness guard, where the default is never taken). -/
def jsGet : Option String → String
  | none => ""
  | some s => s

/-- JS string interpolation of a possibly-undefined value: `undefined`
prints as the string `"undefined"`. -/
def jsShow : Option String → String
  | none => "undefined"
  | some s => s

/-- JS `a || b` on optional strings: `b` verbatim when `a` is falsy. -/
def jsOr (a b : Option String) : Option String :=
  if strTruthy a then a else b

/-- Modelled from the spec: `author` — "record with optional `name`, `url`"
(the `Manifest` type declaration lives outside this repository slice). -/
structure Author where
  name : Option String
  url : Option String
deriving DecidableEq

/-- Modelled from the spec: the `repository` object carrying
"`repository.url` (string, optional)"; the object itself is optional on the
manifest, and when it is present it carries the url string. -/
structure Repository where
  url : String
deriving DecidableEq

/-- Modelled from the spec: the "reference object carrying an `ignore` flag
used for filtering" (`manifest._reference` in the source). -/
structure Reference where
  ignore : Bool
deriving DecidableEq

/-- Modelled from the spec: a resolved package manifest (§3 data model).
`manifestIsPrivate` is the source's `private` field (a Lean keyword), under
the name the source itself uses when destructuring it. An absent JS boolean
is falsy, so the optional booleans are modelled as `Bool`. -/
structure Manifest where
  name : Option String
  version : String
  license : Option String
  repository : Option Repository
  homepage : Option String
  author : Option Author
  licenseText : Option String
  manifestIsPrivate : Bool
  _reference : Option Reference
deriving DecidableEq

/-- Strict lexicographic comparison of character lists, the model of the
order `String.prototype.localeCompare` induces on names. (Lean's built-in
`String` order is iterator-based and does not evaluate inside proofs, so
the comparison is spelled out structurally.) -/
def charListLt : List Char → List Char → Bool
  | [], [] => false
  | [], _ :: _ => true
  | _ :: _, [] => false
  | c :: cs, d :: ds => if c < d then true else if d < c then false else charListLt cs ds

/-- `a.localeCompare(b) < 0` in the model. -/
def localeLt (a b : String) : Bool := charListLt a.data b.data

/-- `a.localeCompare(b) <= 0` in the model. -/
def localeLe (a b : String) : Bool := !charListLt b.data a.data

/-- The sort comparator of `getManifests` (licenses.js lines 26–40):
`!a.name`/`!b.name` are truthiness tests, then `localeCompare`. -/
def nameCompare (a b : Manifest) : Int :=
  if !strTruthy a.name && !strTruthy b.name then 0
  else if !strTruthy a.name then 1
  else if !strTruthy b.name then -1
  else if localeLt (jsGet a.name) (jsGet b.name) then -1
  else if localeLt (jsGet b.name) (jsGet a.name) then 1
  else 0

/-- The non-strict order induced by the comparator (`nameCompare a b <= 0`),
under which a stable JS `Array.prototype.sort` sorts. -/
def manifestLe (a b : Manifest) : Prop := nameCompare a b ≤ 0

instance : DecidableRel manifestLe := fun a b => by
  unfold manifestLe; infer_instance

/-- The filter of `getManifests` (lines 43–46): keep a manifest whose
reference exists and is not flagged ignored (`!!ref && !ref.ignore`). -/
def keepManifest (m : Manifest) : Bool :=
  match m._reference with
  | none => false
  | some ref => !ref.ignore

/-- The pure tail of `getManifests` (lines 26–48): stable-sort the resolved
manifests by name, then drop the ignored ones. JS sort is stable and its
outcome on a consistent comparator is the stable sort, modelled by
`List.insertionSort`. -/
def collect (manifests : List Manifest) : List Manifest :=
  (List.insertionSort manifestLe manifests).filter keepManifest

/-- `license || 'UNKNOWN'` (line 56). -/
def licenseKeyOf (m : Manifest) : String :=
  if strTruthy m.license then jsGet m.license else "UNKNOWN"

/-- `repository ? repository.url : homepage` (line 57): the branch tests
the presence of the `repository` object, which as a JS object is truthy. -/
def urlOf (m : Manifest) : Option String :=
  match m.repository with
  | some repo => some repo.url
  | none => m.homepage

/-- `homepage || (author && author.url)` (line 58). -/
def vendorUrlOf (m : Manifest) : Option String :=
  jsOr m.homepage (m.author.bind Author.url)

/-- `author && author.name` (line 59). -/
def vendorNameOf (m : Manifest) : Option String :=
  m.author.bind Author.name

/-- The record pushed into a license bucket (lines 67–73). -/
structure PackageLicenseInfo where
  name : Option String
  version : String
  url : Option String
  vendorUrl : Option String
  vendorName : Option String
deriving DecidableEq

def packageInfo (m : Manifest) : PackageLicenseInfo :=
  { name := m.name, version := m.version, url := urlOf m,
    vendorUrl := vendorUrlOf m, vendorName := vendorNameOf m }

/-- The bucket key `` `${name}@${version}` `` (line 67); an absent `name`
interpolates as `"undefined"`. -/
def pkgKey (m : Manifest) : String :=
  jsShow m.name ++ "@" ++ m.version

/-- An insertion-ordered map, modelling a JS `Map`. -/
def OMap (α β : Type) : Type := List (α × β)

instance (α β : Type) [DecidableEq α] [DecidableEq β] : DecidableEq (OMap α β) :=
  inferInstanceAs (DecidableEq (List (α × β)))

/-- JS `Map.prototype.get`. -/
def getOM {α β : Type} [DecidableEq α] : OMap α β → α → Option β
  | [], _ => none
  | (k', v') :: rest, k => if k = k' then some v' else getOM rest k

/-- JS `Map.prototype.set`: an existing key keeps its position and gets the
new value; a new key is appended at the end. -/
def setOM {α β : Type} [DecidableEq α] : OMap α β → α → β → OMap α β
  | [], k, v => [(k, v)]
  | (k', v') :: rest, k, v =>
    if k = k' then (k, v) :: rest else (k', v') :: setOM rest k v

/-- The keys of an `OMap`, in insertion order. -/
def keysOM {α β : Type} (m : OMap α β) : List α := m.map Prod.fst

/-- One iteration of the grouping loop of `list` (lines 55–74): create the
bucket for the license key lazily, then `set` the package entry in it. -/
def groupStep (acc : OMap String (OMap String PackageLicenseInfo)) (m : Manifest) :
    OMap String (OMap String PackageLicenseInfo) :=
  setOM acc (licenseKeyOf m)
    (setOM ((getOM acc (licenseKeyOf m)).getD []) (pkgKey m) (packageInfo m))

/-- The grouping loop of `list` (lines 53–74): fold the manifests into
`manifestsByLicense`. -/
def group (manifests : List Manifest) : OMap String (OMap String PackageLicenseInfo) :=
  manifests.foldl groupStep []

/-- `x || 'Unknown'` on an optional cell (line 81). -/
def unknownOr (x : Option String) : String :=
  if strTruthy x then jsGet x else "Unknown"

/-- One row of the tabular output (line 81). The first cell is the raw,
possibly-undefined `name`; the remaining cells are always strings. -/
def tableRow (licenseKey : String) (i : PackageLicenseInfo) : List (Option String) :=
  [i.name, some i.version, some licenseKey, some (unknownOr i.url),
   some (unknownOr i.vendorUrl), some (unknownOr i.vendorName)]

/-- The `body` built by the nested `forEach`/`push` loops of the json
branch (lines 77–83). -/
def tableBody (g : OMap String (OMap String PackageLicenseInfo)) : List (List (Option String)) :=
  g.foldl (fun body kb => kb.2.foldl (fun body2 pv => body2 ++ [tableRow kb.1 pv.2]) body) []

/-- The call `reporter.table(header, body)` (line 85). -/
structure TableOutput where
  header : List String
  body : List (List (Option String))
deriving DecidableEq

/-- The tabular (`--json`) branch of `list` (lines 76–85). -/
def listJsonOutput (manifests : List Manifest) : TableOutput :=
  { header := ["Name", "Version", "License", "URL", "VendorUrl", "VendorName"],
    body := tableBody (group (collect manifests)) }

/-- A node handed to `reporter.tree`: `{name, children}`; a leaf's missing
`children` is modelled as `[]`. `reporter.format.bold` is presentation and
is modelled as the identity on the label text. -/
inductive TreeNode where
  | node (name : String) (children : List TreeNode)

def TreeNode.nameOf : TreeNode → String
  | .node n _ => n

def TreeNode.childrenOf : TreeNode → List TreeNode
  | .node _ c => c

/-- The `children` list of one package node (lines 93–105): a leaf per
truthy field, in the fixed order URL, VendorUrl, VendorName. -/
def packageChildren (i : PackageLicenseInfo) : List TreeNode :=
  (if strTruthy i.url then [TreeNode.node ("URL: " ++ jsGet i.url) []] else []) ++
  (if strTruthy i.vendorUrl then [TreeNode.node ("VendorUrl: " ++ jsGet i.vendorUrl) []] else []) ++
  (if strTruthy i.vendorName then [TreeNode.node ("VendorName: " ++ jsGet i.vendorName) []] else [])

/-- One package node (lines 107–110), labelled `` `${name}@${version}` ``. -/
def packageTree (i : PackageLicenseInfo) : TreeNode :=
  TreeNode.node (jsShow i.name ++ "@" ++ i.version) (packageChildren i)

/-- The `trees` array built by the tree branch (lines 87–117): one node per
bucket, labelled with the license key, children built by pushes. -/
def treesOf (g : OMap String (OMap String PackageLicenseInfo)) : List TreeNode :=
  g.foldl
    (fun trees kb =>
      trees ++ [TreeNode.node kb.1 (kb.2.foldl (fun lt pv => lt ++ [packageTree pv.2]) [])])
    []

/-- The call `reporter.tree('licenses', trees, {force: true})` (line 119). -/
structure TreeOutput where
  title : String
  trees : List TreeNode
  force : Bool

/-- The tree (default) branch of `list` (lines 86–120). -/
def listTreeOutput (manifests : List Manifest) : TreeOutput :=
  { title := "licenses", trees := treesOf (group (collect manifests)), force := true }

/-- `String.prototype.trim`: drop leading and trailing whitespace. Modelled
directly on the character list (Lean's own `String.trim` is extensionally
the same but is defined by well-founded recursion on byte positions, which
blocks evaluation inside proofs). -/
def jsTrim (s : String) : String :=
  ⟨((s.data.dropWhile Char.isWhitespace).reverse.dropWhile Char.isWhitespace).reverse⟩

/-- One disclaimer record (lines 140–143):
`licenseText ? licenseText.trim() : undefined` is a truthiness test. -/
structure DisclaimerEntry where
  name : Option String
  version : String
  licenseText : Option String
  license : Option String
  homepage : Option String
deriving DecidableEq

def disclaimerEntry (m : Manifest) : DisclaimerEntry :=
  { name := m.name, version := m.version,
    licenseText := if strTruthy m.licenseText then some (jsTrim (jsGet m.licenseText)) else none,
    license := m.license, homepage := m.homepage }

/-- The `generateDisclaimer` sub-command (lines 135–148): it runs the full
`getManifests` pipeline (`collect`), then pushes an entry for every
manifest that is not private. -/
def generateDisclaimer (manifests : List Manifest) : List DisclaimerEntry :=
  (collect manifests).foldl
    (fun data m => if !m.manifestIsPrivate then data ++ [disclaimerEntry m] else data) []

/-- First-occurrence order of the values of a list: the key order a JS
`Map` ends up with after inserting the values left to right. -/
def dedupFirst {α : Type} [DecidableEq α] (l : List α) : List α :=
  l.foldl (fun acc x => if x ∈ acc then acc else acc ++ [x]) []

/-- The manifests whose grouping-loop iteration writes the entry at bucket
key `k`, package key `pk`. -/
def writesAt (k pk : String) (m : Manifest) : Bool :=
  licenseKeyOf m == k && pkgKey m == pk

/-- Spec wording of the disclaimer output (C1): the non-private manifests
of the raw provider list, in provider order, no sorting, no ignore
filtering. -/
def disclaimerSpecRaw (manifests : List Manifest) : List DisclaimerEntry :=
  (manifests.filter (fun m => !m.manifestIsPrivate)).map disclaimerEntry

/-- Spec wording of the sort order (C3): a manifest with an absent `name`
after every named one, named manifests in locale order, absent/absent a
tie. An empty-string name counts as named here. -/
def specNameLe (a b : Manifest) : Prop :=
  match a.name, b.name with
  | none, none => True
  | none, some _ => False
  | some _, none => True
  | some x, some y => localeLe x y = true

instance : DecidableRel specNameLe := fun a b => by
  unfold specNameLe; cases a.name <;> cases b.name <;> infer_instance

/-- Amended sort order (C3): exactly as `specNameLe`, except that a manifest
whose name is absent or empty sorts after every manifest with a non-empty
name and ties with any other such manifest. -/
def amendedNameLe (a b : Manifest) : Prop :=
  match strTruthy a.name, strTruthy b.name with
  | true, true => localeLe (jsGet a.name) (jsGet b.name) = true
  | true, false => True
  | false, true => False
  | false, false => True

instance : DecidableRel amendedNameLe := fun a b => by
  unfold amendedNameLe
  cases strTruthy a.name <;> cases strTruthy b.name <;> infer_instance

/-- Spec wording of a table cell (C5): `"Unknown"` for an absent value,
the value itself whenever it is present. -/
def specCell (x : Option String) : String := x.getD "Unknown"

/-- Spec wording of a table row (C5). -/
def specTableRow (licenseKey : String) (i : PackageLicenseInfo) : List (Option String) :=
  [i.name, some i.version, some licenseKey, some (specCell i.url),
   some (specCell i.vendorUrl), some (specCell i.vendorName)]

/-- Spec wording of a package node's children (C6): one leaf per present
field, presence alone deciding inclusion. -/
def specPackageChildren (i : PackageLicenseInfo) : List TreeNode :=
  (match i.url with | some u => [TreeNode.node ("URL: " ++ u) []] | none => []) ++
  (match i.vendorUrl with | some u => [TreeNode.node ("VendorUrl: " ++ u) []] | none => []) ++
  (match i.vendorName with | some n => [TreeNode.node ("VendorName: " ++ n) []] | none => [])

/-- Spec wording of a disclaimer entry (C9): `licenseText` trimmed whenever
the field is present, absent only when the field is absent. -/
def specDisclaimerEntry (m : Manifest) : DisclaimerEntry :=
  { name := m.name, version := m.version,
    licenseText := m.licenseText.map jsTrim,
    license := m.license, homepage := m.homepage }

/-- A well-formed baseline manifest for concrete test inputs. -/
def baseM : Manifest :=
  { name := some "a", version := "1.0", license := some "MIT",
    repository := none, homepage := none, author := none, licenseText := none,
    manifestIsPrivate := false, _reference := some { ignore := false } }

def exNamedB : Manifest := { baseM with name := some "b" }

def exEmptyName : Manifest := { baseM with name := some "" }

def exEmptyLicense : Manifest := { baseM with license := some "" }

def exNoLicense : Manifest := { baseM with license := none }

def exEmptyHomepage : Manifest := { baseM with homepage := some "" }

def exHomepage : Manifest := { baseM with homepage := some "https://example.org" }

def exRepo : Manifest := { baseM with repository := some { url := "https://example.org/r.git" } }

def exEmptyLicenseText : Manifest := { baseM with licenseText := some "" }

def exLicenseText : Manifest := { baseM with licenseText := some " MIT License " }

theorem getOM_setOM_self {α β : Type} [DecidableEq α] (m : OMap α β) (k : α) (v : β) :
    getOM (setOM m k v) k = some v := by
  induction m with
  | nil => simp [setOM, getOM]
  | cons kv rest ih =>
    obtain ⟨k', v'⟩ := kv
    by_cases h : k = k'
    · subst h; simp [setOM, getOM]
    · simp [setOM, getOM, h, ih]

theorem getOM_setOM_ne {α β : Type} [DecidableEq α] (m : OMap α β) {k k' : α} (v : β)
    (h : k' ≠ k) : getOM (setOM m k v) k' = getOM m k' := by
  induction m with
  | nil => simp [setOM, getOM, h]
  | cons kv rest ih =>
    obtain ⟨a, b⟩ := kv
    by_cases hk : k = a
    · subst hk; simp [setOM, getOM, h]
    · by_cases hk' : k' = a <;> simp [setOM, getOM, hk, hk', ih]

theorem keysOM_cons {α β : Type} (a : α) (b : β) (rest : OMap α β) :
    keysOM ((a, b) :: rest : OMap α β) = a :: keysOM rest := rfl

theorem keysOM_setOM_mem {α β : Type} [DecidableEq α] (m : OMap α β) {k : α} (v : β)
    (h : k ∈ keysOM m) : keysOM (setOM m k v) = keysOM m := by
  induction m with
  | nil => simp [keysOM] at h
  | cons kv rest ih =>
    obtain ⟨a, b⟩ := kv
    by_cases hk : k = a
    · subst hk; simp [setOM, keysOM]
    · rw [keysOM_cons] at h
      have h' : k ∈ keysOM rest := by
        rcases List.mem_cons.mp h with h | h
        · exact absurd h hk
        · exact h
      simp [setOM, hk, keysOM_cons, ih h']

theorem keysOM_setOM_not_mem {α β : Type} [DecidableEq α] (m : OMap α β) {k : α} (v : β)
    (h : k ∉ keysOM m) : keysOM (setOM m k v) = keysOM m ++ [k] := by
  induction m with
  | nil => simp [setOM, keysOM]
  | cons kv rest ih =>
    obtain ⟨a, b⟩ := kv
    rw [keysOM_cons] at h
    have hk : ¬k = a := fun hh => h (by simp [hh])
    have h' : k ∉ keysOM rest := fun hh => h (by simp [hh])
    simp [setOM, hk, keysOM_cons, ih h']

theorem getOM_eq_none_iff {α β : Type} [DecidableEq α] (m : OMap α β) (k : α) :
    getOM m k = none ↔ k ∉ keysOM m := by
  induction m with
  | nil => simp [getOM, keysOM]
  | cons kv rest ih =>
    obtain ⟨a, b⟩ := kv
    by_cases hk : k = a <;> simp [getOM, hk, keysOM_cons, ih]

theorem dedupFirst_concat {α : Type} [DecidableEq α] (l : List α) (x : α) :
    dedupFirst (l ++ [x]) =
      if x ∈ dedupFirst l then dedupFirst l else dedupFirst l ++ [x] := by
  simp [dedupFirst, List.foldl_append]

theorem mem_foldl_dedup {α : Type} [DecidableEq α] (l acc : List α) (x : α) :
    x ∈ l.foldl (fun acc y => if y ∈ acc then acc else acc ++ [y]) acc ↔
      x ∈ acc ∨ x ∈ l := by
  induction l generalizing acc with
  | nil => simp
  | cons y l ih =>
    rw [List.foldl_cons, ih]
    by_cases h : y ∈ acc
    · rw [if_pos h]
      constructor
      · rintro (h1 | h1)
        · exact Or.inl h1
        · exact Or.inr (List.mem_cons_of_mem y h1)
      · rintro (h1 | h1)
        · exact Or.inl h1
        · rcases List.mem_cons.mp h1 with h1 | h1
          · exact Or.inl (h1 ▸ h)
          · exact Or.inr h1
    · rw [if_neg h]
      simp [List.mem_append, or_assoc]

theorem mem_dedupFirst {α : Type} [DecidableEq α] (l : List α) (x : α) :
    x ∈ dedupFirst l ↔ x ∈ l := by
  rw [dedupFirst, mem_foldl_dedup]; simp

theorem nodup_foldl_dedup {α : Type} [DecidableEq α] (l : List α) (acc : List α)
    (h : acc.Nodup) :
    (l.foldl (fun acc y => if y ∈ acc then acc else acc ++ [y]) acc).Nodup := by
  induction l generalizing acc with
  | nil => simpa
  | cons y l ih =>
    rw [List.foldl_cons]
    apply ih
    by_cases hy : y ∈ acc
    · simpa [hy]
    · rw [if_neg hy]
      simp [List.nodup_append, h, hy]

theorem nodup_dedupFirst {α : Type} [DecidableEq α] (l : List α) :
    (dedupFirst l).Nodup :=
  nodup_foldl_dedup l [] List.nodup_nil

theorem foldl_push_map {α β : Type} (l : List α) (f : α → β) (init : List β) :
    l.foldl (fun acc x => acc ++ [f x]) init = init ++ l.map f := by
  induction l generalizing init with
  | nil => simp
  | cons x l ih => simp [List.foldl_cons, ih]

theorem foldl_push_filter_map {α β : Type} (l : List α) (p : α → Bool) (f : α → β)
    (init : List β) :
    l.foldl (fun acc x => if p x then acc ++ [f x] else acc) init =
      init ++ (l.filter p).map f := by
  induction l generalizing init with
  | nil => simp
  | cons x l ih => by_cases h : p x <;> simp [List.foldl_cons, List.filter_cons, h, ih]

theorem foldl_push_bind {α β : Type} (l : List α) (F : α → List β) (init : List β) :
    l.foldl (fun acc x => acc ++ F x) init = init ++ l.flatMap F := by
  induction l generalizing init with
  | nil => simp
  | cons x l ih => simp [List.foldl_cons, ih]

theorem charListLt_asymm : ∀ x y : List Char, charListLt x y = true → charListLt y x = false
  | [], [], h => by simp [charListLt] at h
  | [], _ :: _, _ => rfl
  | _ :: _, [], h => by simp [charListLt] at h
  | c :: cs, d :: ds, h => by
    rcases lt_trichotomy c d with hcd | hcd | hcd
    · simp only [charListLt, if_neg (asymm hcd), if_pos hcd]
    · subst hcd
      simp only [charListLt, if_neg (lt_irrefl c)] at h ⊢
      exact charListLt_asymm cs ds h
    · simp only [charListLt, if_neg (asymm hcd), if_pos hcd] at h
      exact Bool.noConfusion h

theorem charListLt_trans : ∀ x y z : List Char, charListLt x y = true →
    charListLt y z = true → charListLt x z = true
  | [], [], _, h1, _ => by simp [charListLt] at h1
  | [], _ :: _, [], _, h2 => by simp [charListLt] at h2
  | [], _ :: _, _ :: _, _, _ => rfl
  | _ :: _, [], _, h1, _ => by simp [charListLt] at h1
  | _ :: _, _ :: _, [], _, h2 => by simp [charListLt] at h2
  | c :: cs, d :: ds, e :: es, h1, h2 => by
    simp only [charListLt] at h1 h2 ⊢
    rcases lt_trichotomy c d with hcd | hcd | hcd
    · rcases lt_trichotomy d e with hde | hde | hde
      · rw [if_pos (lt_trans hcd hde)]
      · subst hde
        rw [if_pos hcd]
      · rw [if_neg (asymm hde), if_pos hde] at h2
        exact absurd h2 (by simp)
    · subst hcd
      rw [if_neg (lt_irrefl c), if_neg (lt_irrefl c)] at h1
      rcases lt_trichotomy c e with hce | hce | hce
      · rw [if_pos hce]
      · subst hce
        rw [if_neg (lt_irrefl c), if_neg (lt_irrefl c)] at h2 ⊢
        exact charListLt_trans cs ds es h1 h2
      · rw [if_neg (asymm hce), if_pos hce] at h2
        exact absurd h2 (by simp)
    · rw [if_neg (asymm hcd), if_pos hcd] at h1
      exact absurd h1 (by simp)

theorem charListLt_conn : ∀ x y : List Char, charListLt x y = false →
    charListLt y x = false → x = y
  | [], [], _, _ => rfl
  | [], _ :: _, h1, _ => by simp [charListLt] at h1
  | _ :: _, [], _, h2 => by simp [charListLt] at h2
  | c :: cs, d :: ds, h1, h2 => by
    rcases lt_trichotomy c d with hcd | hcd | hcd
    · simp only [charListLt, if_pos hcd] at h1
      exact Bool.noConfusion h1
    · subst hcd
      simp only [charListLt, if_neg (lt_irrefl c)] at h1 h2
      rw [charListLt_conn cs ds h1 h2]
    · simp only [charListLt, if_pos hcd] at h2
      exact Bool.noConfusion h2

theorem localeLe_total (x y : String) : localeLe x y = true ∨ localeLe y x = true := by
  unfold localeLe
  cases h : charListLt y.data x.data
  · exact Or.inl rfl
  · right
    rw [charListLt_asymm _ _ h]
    rfl

theorem localeLe_trans (x y z : String) (h1 : localeLe x y = true)
    (h2 : localeLe y z = true) : localeLe x z = true := by
  unfold localeLe at h1 h2 ⊢
  rw [Bool.not_eq_true'] at h1 h2 ⊢
  cases hzx : charListLt z.data x.data
  · rfl
  · cases hxy : charListLt x.data y.data
    · have hxyeq := charListLt_conn _ _ hxy h1
      rw [hxyeq] at hzx
      rw [h2] at hzx
      exact Bool.noConfusion hzx
    · have htr := charListLt_trans _ _ _ hzx hxy
      rw [h2] at htr
      exact Bool.noConfusion htr

theorem nameCompare_eq (a b : Manifest) :
    nameCompare a b =
      match strTruthy a.name, strTruthy b.name with
      | false, false => 0
      | false, true => 1
      | true, false => -1
      | true, true =>
        if localeLt (jsGet a.name) (jsGet b.name) then -1
        else if localeLt (jsGet b.name) (jsGet a.name) then 1 else 0 := by
  unfold nameCompare
  cases strTruthy a.name <;> cases strTruthy b.name <;> rfl

theorem manifestLe_iff (a b : Manifest) : manifestLe a b ↔ amendedNameLe a b := by
  unfold manifestLe amendedNameLe
  rw [nameCompare_eq]
  cases ha : strTruthy a.name <;> cases hb : strTruthy b.name
  · exact iff_of_true (le_refl 0) trivial
  · exact iff_of_false (by norm_num) (fun h => h)
  · exact iff_of_true (by norm_num) trivial
  · unfold localeLt localeLe
    cases hxy : charListLt (jsGet a.name).data (jsGet b.name).data <;>
      cases hyx : charListLt (jsGet b.name).data (jsGet a.name).data
    · exact iff_of_true (by decide) (by decide)
    · exact iff_of_false (by decide) (by decide)
    · exact iff_of_true (by decide) (by decide)
    · exact absurd (charListLt_asymm _ _ hxy) (by simp [hyx])

instance : IsTotal Manifest manifestLe :=
  ⟨fun a b => by
    rw [manifestLe_iff, manifestLe_iff]
    unfold amendedNameLe
    cases strTruthy a.name <;> cases strTruthy b.name <;>
      first
      | exact localeLe_total _ _
      | exact Or.inl trivial
      | exact Or.inr trivial⟩

instance : IsTrans Manifest manifestLe :=
  ⟨fun a b c h1 h2 => by
    rw [manifestLe_iff] at h1 h2 ⊢
    unfold amendedNameLe at h1 h2 ⊢
    cases hA : strTruthy a.name <;> cases hB : strTruthy b.name <;>
      cases hC : strTruthy c.name <;>
      rw [hA, hB] at h1 <;> rw [hB, hC] at h2 <;>
      first
      | exact localeLe_trans _ _ _ h1 h2
      | exact h1.elim
      | exact h2.elim
      | trivial⟩

theorem falsy_name_le (a b : Manifest) (ha : strTruthy a.name = false)
    (hb : strTruthy b.name = false) : manifestLe a b := by
  unfold manifestLe
  rw [nameCompare_eq, ha, hb]

theorem filter_orderedInsert_pos {α : Type} (r : α → α → Prop) [DecidableRel r]
    (p : α → Bool) (a : α) (l : List α) (ha : p a = true)
    (h : ∀ b, p b = true → r a b) :
    (l.orderedInsert r a).filter p = a :: l.filter p := by
  induction l with
  | nil => simp [List.orderedInsert, ha]
  | cons c l ih =>
    rw [List.orderedInsert]
    by_cases hr : r a c
    · rw [if_pos hr]
      simp [List.filter_cons, ha]
    · rw [if_neg hr]
      have hc : p c = false := by
        cases hpc : p c
        · rfl
        · exact absurd (h c hpc) hr
      simp [List.filter_cons, hc, ih]

theorem filter_orderedInsert_neg {α : Type} (r : α → α → Prop) [DecidableRel r]
    (p : α → Bool) (a : α) (l : List α) (ha : p a = false) :
    (l.orderedInsert r a).filter p = l.filter p := by
  induction l with
  | nil => simp [List.orderedInsert, ha]
  | cons c l ih =>
    rw [List.orderedInsert]
    by_cases hr : r a c
    · rw [if_pos hr]
      simp [List.filter_cons, ha]
    · rw [if_neg hr]
      cases hc : p c <;> simp [List.filter_cons, hc, ih]

/-- Stability of insertion sort on a class of mutually tied elements: the
subsequence of elements satisfying `p` is untouched by the sort, provided
any `p`-element is `r`-below every `p`-element. -/
theorem filter_insertionSort_class {α : Type} (r : α → α → Prop) [DecidableRel r]
    (p : α → Bool) (h : ∀ a b, p a = true → p b = true → r a b) (l : List α) :
    (List.insertionSort r l).filter p = l.filter p := by
  induction l with
  | nil => rfl
  | cons x l ih =>
    rw [List.insertionSort]
    cases hx : p x
    · rw [filter_orderedInsert_neg r p x _ hx]
      simp [List.filter_cons, hx, ih]
    · rw [filter_orderedInsert_pos r p x _ hx (fun b hb => h x b hx hb)]
      simp [List.filter_cons, hx, ih]

theorem collect_sorted (manifests : List Manifest) :
    List.Sorted manifestLe (collect manifests) :=
  List.Pairwise.sublist (List.filter_sublist _)
    (List.sorted_insertionSort manifestLe manifests)

theorem collect_subperm (manifests : List Manifest) :
    List.Subperm (collect manifests) manifests :=
  List.Subperm.trans (List.filter_sublist _).subperm
    (List.perm_insertionSort manifestLe manifests).subperm

theorem collect_count (manifests : List Manifest) (m : Manifest) :
    (collect manifests).count m =
      if keepManifest m then manifests.count m else 0 := by
  unfold collect
  by_cases h : keepManifest m
  · rw [if_pos h, List.count_filter h]
    exact (List.perm_insertionSort manifestLe manifests).count_eq m
  · rw [if_neg h, List.count_eq_zero]
    intro hmem
    exact absurd (List.of_mem_filter hmem) (by simp [h])

theorem collect_stable_falsy (manifests : List Manifest) :
    (collect manifests).filter (fun m => !strTruthy m.name) =
      (manifests.filter keepManifest).filter (fun m => !strTruthy m.name) := by
  unfold collect
  rw [List.filter_comm]
  rw [filter_insertionSort_class manifestLe (fun m => !strTruthy m.name)
    (fun a b ha hb => falsy_name_le a b (by simpa using ha) (by simpa using hb))]
  rw [List.filter_comm]

theorem group_concat (manifests : List Manifest) (m : Manifest) :
    group (manifests ++ [m]) = groupStep (group manifests) m := by
  simp [group, List.foldl_append]

theorem bind_getOM_getD {α β : Type} [DecidableEq α] (o : Option (OMap α β)) (k : α) :
    (o.bind fun b => getOM b k) = getOM (o.getD []) k := by
  cases o <;> rfl

theorem writesAt_self (m : Manifest) : writesAt (licenseKeyOf m) (pkgKey m) m = true := by
  simp [writesAt]

/-- The value stored at bucket `k`, package key `pk` after grouping is the
derived record of the last manifest in the list whose license key is `k`
and package key is `pk` (and absent when no such manifest exists). -/
theorem group_lookup (manifests : List Manifest) (k pk : String) :
    ((getOM (group manifests) k).bind fun b => getOM b pk) =
      ((manifests.filter (writesAt k pk)).getLast?).map packageInfo := by
  induction manifests using List.reverseRecOn with
  | nil => rfl
  | append_singleton ms m ih =>
    rw [group_concat]
    unfold groupStep
    rw [List.filter_append]
    by_cases hk : k = licenseKeyOf m
    · subst hk
      rw [getOM_setOM_self, Option.some_bind]
      by_cases hpk : pk = pkgKey m
      · subst hpk
        rw [getOM_setOM_self]
        have hfm : List.filter (writesAt (licenseKeyOf m) (pkgKey m)) [m] = [m] := by
          simp [writesAt_self]
        rw [hfm, List.getLast?_concat]
        rfl
      · rw [getOM_setOM_ne _ _ hpk, ← bind_getOM_getD, ih]
        have hfm : List.filter (writesAt (licenseKeyOf m) pk) [m] = [] := by
          simp [writesAt]
          exact fun h => hpk h.symm
        rw [hfm, List.append_nil]
    · rw [getOM_setOM_ne _ _ hk, ih]
      have hfm : List.filter (writesAt k pk) [m] = [] := by
        simp [writesAt]
        exact fun h _ => hk h.symm
      rw [hfm, List.append_nil]

/-- Bucket keys appear in first-seen order of license keys. -/
theorem group_keys (manifests : List Manifest) :
    keysOM (group manifests) = dedupFirst (manifests.map licenseKeyOf) := by
  induction manifests using List.reverseRecOn with
  | nil => rfl
  | append_singleton ms m ih =>
    rw [group_concat]
    unfold groupStep
    rw [List.map_append]
    simp only [List.map_cons, List.map_nil]
    rw [dedupFirst_concat]
    by_cases hk : licenseKeyOf m ∈ keysOM (group ms)
    · rw [keysOM_setOM_mem _ _ hk, ih, if_pos (ih ▸ hk)]
    · rw [keysOM_setOM_not_mem _ _ hk, ih, if_neg (fun hc => hk (ih ▸ hc))]

theorem getOM_group_none_iff (manifests : List Manifest) (k : String) :
    getOM (group manifests) k = none ↔ ∀ m ∈ manifests, licenseKeyOf m ≠ k := by
  rw [getOM_eq_none_iff, group_keys, mem_dedupFirst]
  simp

/-- Within one bucket, package keys appear in first-seen order of the
manifests that target that bucket. -/
theorem group_bucket_keys (manifests : List Manifest) (k : String)
    (b : OMap String PackageLicenseInfo) (hb : getOM (group manifests) k = some b) :
    keysOM b =
      dedupFirst ((manifests.filter fun m => licenseKeyOf m == k).map pkgKey) := by
  induction manifests using List.reverseRecOn generalizing b with
  | nil => exact absurd hb (by simp [group, getOM])
  | append_singleton ms m ih =>
    rw [group_concat] at hb
    unfold groupStep at hb
    rw [List.filter_append]
    by_cases hk : k = licenseKeyOf m
    · subst hk
      rw [getOM_setOM_self] at hb
      have hfm : List.filter (fun m' => licenseKeyOf m' == licenseKeyOf m) [m] = [m] := by
        simp
      rw [hfm, List.map_append]
      simp only [List.map_cons, List.map_nil]
      rw [dedupFirst_concat]
      cases hg : getOM (group ms) (licenseKeyOf m) with
      | none =>
        have hnil : List.filter (fun m' => licenseKeyOf m' == licenseKeyOf m) ms = [] := by
          rw [List.filter_eq_nil_iff]
          intro a ha
          simpa using (getOM_group_none_iff ms (licenseKeyOf m)).mp hg a ha
        rw [hg] at hb
        simp only [Option.getD_none] at hb
        rw [hnil]
        simp only [List.map_nil]
        have : b = [(pkgKey m, packageInfo m)] := by
          injection hb with h
          exact h.symm
        subst this
        simp [keysOM, dedupFirst]
      | some b0 =>
        rw [hg] at hb
        simp only [Option.getD_some] at hb
        injection hb with h
        subst h
        have ihb := ih b0 hg
        by_cases hmem : pkgKey m ∈ keysOM b0
        · rw [keysOM_setOM_mem _ _ hmem, ihb, if_pos (ihb ▸ hmem)]
        · rw [keysOM_setOM_not_mem _ _ hmem, ihb, if_neg (fun hc => hmem (ihb ▸ hc))]
    · rw [getOM_setOM_ne _ _ hk] at hb
      have hfm : List.filter (fun m' => licenseKeyOf m' == k) [m] = [] := by
        simp
        exact fun h => hk h.symm
      rw [hfm, List.append_nil]
      exact ih b hb

/-- The nested push loops of the json branch flatten the grouped structure
bucket by bucket, entry by entry. -/
theorem tableBody_eq (g : OMap String (OMap String PackageLicenseInfo)) :
    tableBody g = g.flatMap fun kb => kb.2.map fun pv => tableRow kb.1 pv.2 := by
  unfold tableBody
  simp only [foldl_push_map]
  rw [foldl_push_bind]
  simp

/-- The push loops of the tree branch produce one node per bucket with one
child per entry. -/
theorem treesOf_eq (g : OMap String (OMap String PackageLicenseInfo)) :
    treesOf g =
      g.map fun kb => TreeNode.node kb.1 (kb.2.map fun pv => packageTree pv.2) := by
  unfold treesOf
  simp only [foldl_push_map]
  simp

/-- The disclaimer loop is a filter of the collected manifests followed by
the entry construction. -/
theorem generateDisclaimer_eq (manifests : List Manifest) :
    generateDisclaimer manifests =
      ((collect manifests).filter fun m => !m.manifestIsPrivate).map disclaimerEntry := by
  unfold generateDisclaimer
  rw [foldl_push_filter_map]
  simp

/-- Sorting the already-sorted, already-filtered list changes nothing. -/
theorem collect_idem (manifests : List Manifest) :
    collect (collect manifests) = collect manifests := by
  unfold collect
  rw [List.Sorted.insertionSort_eq (List.Pairwise.sublist (List.filter_sublist _)
    (List.sorted_insertionSort manifestLe manifests))]
  rw [List.filter_filter]
  simp

theorem mem_generateDisclaimer (manifests : List Manifest) (e : DisclaimerEntry) :
    e ∈ generateDisclaimer manifests ↔
      ∃ m, m ∈ collect manifests ∧ m.manifestIsPrivate = false ∧
        e = disclaimerEntry m := by
  rw [generateDisclaimer_eq]
  simp only [List.mem_map, List.mem_filter]
  constructor
  · rintro ⟨m, ⟨hm, hp⟩, he⟩
    exact ⟨m, hm, by simpa using hp, he.symm⟩
  · rintro ⟨m, hm, hp, he⟩
    exact ⟨m, ⟨hm, by simpa using hp⟩, he.symm⟩

/-- C2: the `url` field derived by the grouping loop is the repository URL
whenever the manifest has a `repository` object, and the homepage
otherwise. (`packageInfo` is exactly the record the loop stores.) -/
theorem url_fallback (m : Manifest) :
    (∀ r, m.repository = some r → (packageInfo m).url = some r.url) ∧
      (m.repository = none → (packageInfo m).url = m.homepage) := by
  constructor
  · intro r hr
    simp [packageInfo, urlOf, hr]
  · intro hr
    simp [packageInfo, urlOf, hr]

theorem url_fallback_witness :
    (packageInfo exRepo).url = some "https://example.org/r.git" ∧
      (packageInfo exHomepage).url = exHomepage.homepage :=
  ⟨(url_fallback exRepo).1 { url := "https://example.org/r.git" } rfl,
    (url_fallback exHomepage).2 rfl⟩

/-- C7: the aggregation pipeline is deterministic — recomputing
`group (collect M)` on the same `M` gives structurally identical output —
and re-collecting an already collected list changes nothing, so the
re-aggregated output is also identical. -/
theorem aggregation_deterministic_idempotent (manifests : List Manifest) :
    group (collect manifests) = group (collect manifests) ∧
      collect (collect manifests) = collect manifests ∧
      group (collect (collect manifests)) = group (collect manifests) :=
  ⟨rfl, collect_idem manifests, by rw [collect_idem]⟩

/-- C1 counterexample: the disclaimer sub-command does not preserve the raw
provider order — it runs the same sort pipeline as `list` ( `getManifests`),
so the provider list `[b, a]` comes out as entries `[a, b]`, not `[b, a]`. -/
theorem disclaimer_raw_order_refuted :
    generateDisclaimer [exNamedB, baseM] ≠ disclaimerSpecRaw [exNamedB, baseM] := by
  decide

/-- C1 amended: the disclaimer output is the non-private manifests of the
sorted, ignore-filtered list produced by the shared `getManifests` pipeline
(`collect`), in that list's order; only the grouping stage is bypassed. -/
theorem disclaimer_entries (manifests : List Manifest) :
    generateDisclaimer manifests =
      ((collect manifests).filter fun m => !m.manifestIsPrivate).map disclaimerEntry :=
  generateDisclaimer_eq manifests

/-- C9 counterexample: a manifest whose `licenseText` is present but equal
to `""` yields an entry with `licenseText` absent, not `some ""` — the
source tests truthiness, not presence. -/
theorem disclaimer_empty_text_refuted :
    generateDisclaimer [exEmptyLicenseText] ≠ [specDisclaimerEntry exEmptyLicenseText] ∧
      (generateDisclaimer [exEmptyLicenseText]).map DisclaimerEntry.licenseText = [none] := by
  decide

/-- C9 amended: every emitted disclaimer entry carries exactly the fields
`name`, `version`, `licenseText`, `license`, `homepage` of its non-private
source manifest, with `licenseText` trimmed when present and non-empty, and
left absent when it is absent or the empty string. -/
theorem disclaimer_entry_fields (manifests : List Manifest) (e : DisclaimerEntry)
    (he : e ∈ generateDisclaimer manifests) :
    ∃ m, m ∈ collect manifests ∧ m.manifestIsPrivate = false ∧
      e.name = m.name ∧ e.version = m.version ∧ e.license = m.license ∧
      e.homepage = m.homepage ∧
      (m.licenseText = none → e.licenseText = none) ∧
      (∀ s, m.licenseText = some s → s ≠ "" → e.licenseText = some (jsTrim s)) ∧
      (m.licenseText = some "" → e.licenseText = none) := by
  obtain ⟨m, hm, hp, he⟩ := (mem_generateDisclaimer manifests e).mp he
  subst he
  refine ⟨m, hm, hp, rfl, rfl, rfl, rfl, ?_, ?_, ?_⟩
  · intro h
    simp [disclaimerEntry, strTruthy, h]
  · intro s hs hne
    simp [disclaimerEntry, strTruthy, hs, hne, jsGet]
  · intro h
    simp [disclaimerEntry, strTruthy, h]

theorem disclaimer_entry_fields_witness :
    ∃ m, m ∈ collect [exLicenseText] ∧ m.manifestIsPrivate = false ∧
      (disclaimerEntry exLicenseText).name = m.name ∧
      (disclaimerEntry exLicenseText).version = m.version ∧
      (disclaimerEntry exLicenseText).license = m.license ∧
      (disclaimerEntry exLicenseText).homepage = m.homepage ∧
      (m.licenseText = none → (disclaimerEntry exLicenseText).licenseText = none) ∧
      (∀ s, m.licenseText = some s → s ≠ "" →
        (disclaimerEntry exLicenseText).licenseText = some (jsTrim s)) ∧
      (m.licenseText = some "" → (disclaimerEntry exLicenseText).licenseText = none) :=
  disclaimer_entry_fields [exLicenseText] (disclaimerEntry exLicenseText) (by decide)

/-- C3 counterexample: an empty-string `name` is present, yet the sort
treats it as absent (`!a.name` is a truthiness test), so the output
`[a-named, empty-named]` violates the claimed order in which any present
name participates in locale order (`"" <= "a"`). -/
theorem collect_empty_name_order_refuted :
    collect [exEmptyName, baseM] = [baseM, exEmptyName] ∧
      ¬ List.Pairwise specNameLe (collect [exEmptyName, baseM]) := by
  constructor
  · decide
  · intro h
    have : specNameLe baseM exEmptyName := by
      have e : collect [exEmptyName, baseM] = [baseM, exEmptyName] := by decide
      rw [e] at h
      exact (List.pairwise_cons.mp h).1 exEmptyName (List.mem_singleton.mpr rfl)
    exact absurd this (by decide)

/-- C3 amended: `collect` returns a subpermutation of its input that is
sorted so that every manifest with an absent or empty name comes after
every manifest with a non-empty name (non-empty names in locale order);
manifests with absent-or-empty names keep their relative order; and the
kept elements are exactly those whose reference exists and is not flagged
ignored. -/
theorem collect_spec (manifests : List Manifest) :
    List.Sorted amendedNameLe (collect manifests) ∧
      List.Subperm (collect manifests) manifests ∧
      (∀ m, (collect manifests).count m =
        if keepManifest m then manifests.count m else 0) ∧
      (collect manifests).filter (fun m => !strTruthy m.name) =
        (manifests.filter keepManifest).filter (fun m => !strTruthy m.name) :=
  ⟨(collect_sorted manifests).imp (fun h => (manifestLe_iff _ _).mp h),
    collect_subperm manifests, collect_count manifests,
    collect_stable_falsy manifests⟩

/-- C4 counterexample: a manifest whose `license` is present but empty is
bucketed under `"UNKNOWN"`; no bucket keyed by its license value `""`
exists. -/
theorem empty_license_bucket_refuted :
    exEmptyLicense.license = some "" ∧
      getOM (group [exEmptyLicense]) "" = none ∧
      getOM (group [exEmptyLicense]) "UNKNOWN" ≠ none := by
  decide

theorem group_mem_entry (manifests : List Manifest) (m : Manifest)
    (hm : m ∈ manifests) :
    ∃ b, getOM (group manifests) (licenseKeyOf m) = some b ∧
      (getOM b (pkgKey m)).isSome := by
  have hne : manifests.filter (writesAt (licenseKeyOf m) (pkgKey m)) ≠ [] := by
    intro hnil
    rw [List.filter_eq_nil_iff] at hnil
    exact absurd (writesAt_self m) (by simpa using hnil m hm)
  have hsome := List.getLast?_isSome.mpr hne
  have hl := group_lookup manifests (licenseKeyOf m) (pkgKey m)
  cases hb : getOM (group manifests) (licenseKeyOf m) with
  | none =>
    rw [hb, Option.none_bind] at hl
    rw [Option.isSome_iff_exists] at hsome
    obtain ⟨m', hm'⟩ := hsome
    rw [hm'] at hl
    exact absurd hl.symm (by simp)
  | some b =>
    refine ⟨b, rfl, ?_⟩
    rw [hb, Option.some_bind] at hl
    rw [Option.isSome_iff_exists] at hsome
    obtain ⟨m', hm'⟩ := hsome
    rw [hm'] at hl
    rw [hl]
    simp

theorem group_provenance (manifests : List Manifest) (k pk : String)
    (b : OMap String PackageLicenseInfo) (v : PackageLicenseInfo)
    (hb : getOM (group manifests) k = some b) (hv : getOM b pk = some v) :
    ∃ m', m' ∈ manifests ∧ licenseKeyOf m' = k ∧ pkgKey m' = pk ∧
      packageInfo m' = v := by
  have hl := group_lookup manifests k pk
  rw [hb, Option.some_bind, hv] at hl
  cases hlast : (manifests.filter (writesAt k pk)).getLast? with
  | none => rw [hlast] at hl; exact absurd hl (by simp)
  | some m' =>
    rw [hlast] at hl
    have hmem := List.mem_of_getLast?_eq_some hlast
    rw [List.mem_filter] at hmem
    have hw := hmem.2
    unfold writesAt at hw
    rw [Bool.and_eq_true, beq_iff_eq, beq_iff_eq] at hw
    refine ⟨m', hmem.1, hw.1, hw.2, ?_⟩
    simpa using hl.symm

theorem licenseKeyOf_char (m : Manifest) :
    (∀ s, m.license = some s → s ≠ "" → licenseKeyOf m = s) ∧
      ((m.license = none ∨ m.license = some "") → licenseKeyOf m = "UNKNOWN") := by
  constructor
  · intro s hs hne
    simp [licenseKeyOf, strTruthy, hs, hne, jsGet]
  · rintro (h | h) <;> simp [licenseKeyOf, strTruthy, h]

/-- C4 amended: after grouping, every manifest of the input has an entry in
the bucket keyed by its license key — its non-empty license string, or
`"UNKNOWN"` when the license is absent or empty — and every entry of every
bucket stems from an input manifest with that very license key, so each
manifest is filed under exactly one bucket key. -/
theorem group_partition (manifests : List Manifest) (m : Manifest)
    (hm : m ∈ manifests) :
    (∃ b, getOM (group manifests) (licenseKeyOf m) = some b ∧
      (getOM b (pkgKey m)).isSome) ∧
      (∀ k pk b v, getOM (group manifests) k = some b → getOM b pk = some v →
        ∃ m', m' ∈ manifests ∧ licenseKeyOf m' = k ∧ pkgKey m' = pk ∧
          packageInfo m' = v) ∧
      (∀ s, m.license = some s → s ≠ "" → licenseKeyOf m = s) ∧
      ((m.license = none ∨ m.license = some "") → licenseKeyOf m = "UNKNOWN") :=
  ⟨group_mem_entry manifests m hm,
    fun k pk b v hb hv => group_provenance manifests k pk b v hb hv,
    (licenseKeyOf_char m).1, (licenseKeyOf_char m).2⟩

theorem group_partition_witness :
    (∃ b, getOM (group [exEmptyLicense]) (licenseKeyOf exEmptyLicense) = some b ∧
      (getOM b (pkgKey exEmptyLicense)).isSome) ∧
      licenseKeyOf exEmptyLicense = "UNKNOWN" :=
  ⟨(group_partition [exEmptyLicense] exEmptyLicense (by decide)).1,
    (group_partition [exEmptyLicense] exEmptyLicense (by decide)).2.2.2
      (Or.inr rfl)⟩

/-- C10: a present-but-empty `license` groups exactly like an absent one —
under the sentinel `"UNKNOWN"` — and every bucket key is either
`"UNKNOWN"` or the non-empty license string of some input manifest. -/
theorem unknown_license_key (manifests : List Manifest) (m : Manifest)
    (hm : m ∈ manifests) :
    ((m.license = some "" ∨ m.license = none) →
      licenseKeyOf m = "UNKNOWN" ∧
      ∃ b, getOM (group manifests) "UNKNOWN" = some b ∧
        (getOM b (pkgKey m)).isSome) ∧
      (∀ k, k ∈ keysOM (group manifests) →
        k = "UNKNOWN" ∨ (k ≠ "" ∧ ∃ m', m' ∈ manifests ∧ m'.license = some k)) := by
  constructor
  · intro h
    have hk : licenseKeyOf m = "UNKNOWN" := by
      rcases h with h | h <;> simp [licenseKeyOf, strTruthy, h]
    refine ⟨hk, ?_⟩
    have := group_mem_entry manifests m hm
    rwa [hk] at this
  · intro k hk
    rw [group_keys, mem_dedupFirst, List.mem_map] at hk
    obtain ⟨m', hm', hkey⟩ := hk
    by_cases ht : strTruthy m'.license
    · right
      cases hl : m'.license with
      | none => rw [hl] at ht; exact absurd ht (by simp [strTruthy])
      | some s =>
        rw [← hkey]
        have hs : s ≠ "" := by
          rw [hl] at ht
          simpa [strTruthy] using ht
        rw [(licenseKeyOf_char m').1 s hl hs]
        exact ⟨hs, m', hm', hl⟩
    · left
      rw [← hkey]
      simp [licenseKeyOf, ht]

theorem unknown_license_key_witness :
    licenseKeyOf exEmptyLicense = "UNKNOWN" ∧
      ∃ b, getOM (group [exEmptyLicense, exNoLicense]) "UNKNOWN" = some b ∧
        (getOM b (pkgKey exEmptyLicense)).isSome :=
  (unknown_license_key [exEmptyLicense, exNoLicense] exEmptyLicense
    (by decide)).1 (Or.inl rfl)

/-- C5 counterexample: a present-but-empty `url` (here via an empty
`homepage` with no repository) is rendered as `"Unknown"`, not as the
value itself, because `url || 'Unknown'` tests truthiness; the row
therefore differs from one substituting `"Unknown"` for absent fields
only. -/
theorem table_cell_empty_refuted :
    tableBody (group (collect [exEmptyHomepage])) ≠
      [specTableRow "MIT" (packageInfo exEmptyHomepage)] ∧
      tableBody (group (collect [exEmptyHomepage])) =
        [[some "a", some "1.0", some "MIT", some "Unknown", some "Unknown",
          some "Unknown"]] := by
  decide

/-- C5 amended: the json branch hands the fixed six-column header to the
table reporter; the body flattens the buckets in bucket order then
insertion order, one row `[name, version, licenseKey, url, vendorUrl,
vendorName]` per aggregated package (so the row count is the total bucket
size), where each of the last three cells falls back to the literal
`"Unknown"` exactly when the field is absent or the empty string, and is
never rendered as an empty string or a missing value. -/
theorem table_output_spec (manifests : List Manifest) :
    (listJsonOutput manifests).header =
      ["Name", "Version", "License", "URL", "VendorUrl", "VendorName"] ∧
      (listJsonOutput manifests).body =
        (group (collect manifests)).flatMap
          (fun kb => kb.2.map fun pv => tableRow kb.1 pv.2) ∧
      (listJsonOutput manifests).body.length =
        ((group (collect manifests)).map (fun kb => kb.2.length)).sum ∧
      (∀ x : Option String, x = none → unknownOr x = "Unknown") ∧
      unknownOr (some "") = "Unknown" ∧
      (∀ s : String, s ≠ "" → unknownOr (some s) = s) := by
  refine ⟨rfl, tableBody_eq _, ?_, ?_, rfl, ?_⟩
  · show (tableBody (group (collect manifests))).length = _
    rw [tableBody_eq, List.length_flatMap]
    congr 1
    apply List.map_congr_left
    intro kb _
    simp
  · intro x hx
    simp [unknownOr, hx, strTruthy]
  · intro s hs
    simp [unknownOr, strTruthy, hs, jsGet]

theorem table_output_spec_witness :
    unknownOr none = "Unknown" ∧ unknownOr (some "x") = "x" :=
  ⟨(table_output_spec []).2.2.2.1 none rfl,
    (table_output_spec []).2.2.2.2.2 "x" (by decide)⟩

/-- C6 counterexample: a present-but-empty `url` yields no URL leaf (the
source tests truthiness), refuting inclusion "if and only if the field is
present"; the rendered tree for such a package has a childless package
node. -/
theorem tree_leaf_empty_refuted :
    (packageInfo exEmptyHomepage).url = some "" ∧
      (packageChildren (packageInfo exEmptyHomepage)).length = 0 ∧
      (specPackageChildren (packageInfo exEmptyHomepage)).length = 1 ∧
      (listTreeOutput [exEmptyHomepage]).trees =
        [TreeNode.node "MIT" [TreeNode.node "a@1.0" []]] := by
  refine ⟨rfl, rfl, rfl, ?_⟩
  rfl

/-- C6 amended: the default branch renders root label `"licenses"` with the
forced-display option set, one first-level node per bucket in bucket order
labelled with the license key, one second-level node per package labelled
`name@version`, and per package up to three leaves in the fixed order URL,
VendorUrl, VendorName, each present if and only if the corresponding field
is present and non-empty. -/
theorem tree_output_spec (manifests : List Manifest) :
    (listTreeOutput manifests).title = "licenses" ∧
      (listTreeOutput manifests).force = true ∧
      (listTreeOutput manifests).trees =
        (group (collect manifests)).map
          (fun kb => TreeNode.node kb.1 (kb.2.map fun pv => packageTree pv.2)) ∧
      (∀ i, (packageTree i).nameOf = jsShow i.name ++ "@" ++ i.version) ∧
      (∀ i : PackageLicenseInfo,
        (packageChildren i).map TreeNode.nameOf =
          (if strTruthy i.url then ["URL: " ++ jsGet i.url] else []) ++
          (if strTruthy i.vendorUrl then ["VendorUrl: " ++ jsGet i.vendorUrl] else []) ++
          (if strTruthy i.vendorName then ["VendorName: " ++ jsGet i.vendorName] else [])) := by
  refine ⟨rfl, rfl, treesOf_eq _, fun i => rfl, fun i => ?_⟩
  unfold packageChildren
  cases strTruthy i.url <;> cases strTruthy i.vendorUrl <;>
    cases strTruthy i.vendorName <;> rfl

/-- C8: grouping invariants. Package keys are unique within every bucket;
the value under a package key is the record of the last manifest writing
that bucket/key pair (last write wins); bucket keys appear in first-seen
order of license keys; and keys within a bucket appear in first-insertion
order. Since the statement holds for every input list, it holds in
particular for every prefix of a list, i.e. for the intermediate map after
each iteration of the loop — "at all times during and after grouping". -/
theorem group_bucket_invariants (manifests : List Manifest) :
    (keysOM (group manifests)).Nodup ∧
      (∀ k b, getOM (group manifests) k = some b → (keysOM b).Nodup) ∧
      (∀ k pk, ((getOM (group manifests) k).bind fun b => getOM b pk) =
        ((manifests.filter (writesAt k pk)).getLast?).map packageInfo) ∧
      keysOM (group manifests) = dedupFirst (manifests.map licenseKeyOf) ∧
      (∀ k b, getOM (group manifests) k = some b →
        keysOM b =
          dedupFirst ((manifests.filter fun m => licenseKeyOf m == k).map pkgKey)) :=
  ⟨by rw [group_keys]; exact nodup_dedupFirst _,
    fun k b hb => by rw [group_bucket_keys manifests k b hb]; exact nodup_dedupFirst _,
    fun k pk => group_lookup manifests k pk,
    group_keys manifests,
    fun k b hb => group_bucket_keys manifests k b hb⟩

theorem group_bucket_invariants_witness :
    (keysOM (group [baseM])).Nodup ∧
      (keysOM ([(pkgKey baseM, packageInfo baseM)] : OMap String PackageLicenseInfo)).Nodup :=
  ⟨(group_bucket_invariants [baseM]).1,
    (group_bucket_invariants [baseM]).2.1 "MIT"
      [(pkgKey baseM, packageInfo baseM)] (by decide)⟩
